import Mathlib

/-!
Shallow embedding of gh-watch.py: a GitHub repository watcher that fetches
candidate repositories from three heterogeneous sources (the GitHub search
API, per-language trend RSS feeds, and the r/coolgithubprojects JSON feed),
filters and de-duplicates them into a pending cache, persists state to JSON
files through a dirty-flag gated store, rate-limits its API requests, and
pre-checks licenses before interactive review.

Machine-level details that the embedding fixes once and for all:
Python dictionaries are modelled as association lists (a Python dict has
unique keys; insertion of a fresh key appends); Python `time()` values are
modelled as integers; regular-expression matchers compiled from the config
are modelled as boolean predicates on strings; HTTP responses are modelled
as records carrying the status code and the two rate-limit headers.
-/

namespace GhWatch

/-- A repository record as built by the three fetch routines of
gh-watch.py (keys full_name, user, repo, language, stargazers_count,
forks_count, html_url, homepage, description, and the optional license
key added later by the license pre-check in main). `language`,
`homepage` and `description` can be JSON null, hence Option. -/
structure RepoRecord where
  full_name : String
  user : String
  repo : String
  language : Option String
  stargazers_count : Int
  forks_count : Int
  html_url : String
  homepage : Option String
  description : Option String
  license : Option Bool := none
deriving Repr, DecidableEq

/-- The pending cache self[repos]: a Python dict from full_name to record,
modelled as an association list with unique keys. -/
abbrev RepoMap := List (String × RepoRecord)

/-- The keys of an association list. -/
def namesOf {β : Type} (m : List (String × β)) : List String :=
  m.map Prod.fst

/-- How many entries of the map carry the given key (0 or 1 for a real
Python dict; counting makes "no entry was added" a precise statement). -/
def countName {β : Type} (m : List (String × β)) (fn : String) : Nat :=
  m.countP (fun p => p.1 == fn)

/-- Python dict assignment d[k] = v: overwrite the entry in place when the
key is present (a dict holds at most one entry per key), append a fresh
entry otherwise. -/
def setAssoc {β : Type} : List (String × β) → String → β → List (String × β)
  | [], k, v => [(k, v)]
  | p :: rest, k, v =>
    if p.1 == k then (k, v) :: rest else p :: setAssoc rest k v

/-- Compiled user configuration (class Config): the accepted-language
allow-list, the two compiled filter lists (modelled as boolean matchers,
f.search(s) becomes f s), and the snooze duration in seconds. -/
structure Config where
  accept_languages : List String
  filters_repo : List (String → Bool)
  filters_description : List (String → Bool)
  snooze_seconds : Int

/-- filter_repo(r, config): True when some repo-name filter matches the
repo name, or some description filter matches the description; a None
description is skipped by the description filters. -/
def filter_repo (r : RepoRecord) (config : Config) : Bool :=
  config.filters_repo.any (fun f => f r.repo) ||
  config.filters_description.any (fun f =>
    match r.description with
    | none => false
    | some d => f d)

/-- The snooze/zap watchlist (class Repos): self[snooze] maps full_name to
the epoch seconds it was snoozed; self[zap] is a plain list of names. -/
structure Watchlist where
  snooze : List (String × Int)
  zap : List String
deriving Repr, DecidableEq

/-- Repos.__contains__: a name is known when present in snooze or zap. -/
def Watchlist.isKnown (w : Watchlist) (fn : String) : Bool :=
  w.snooze.any (fun p => p.1 == fn) || w.zap.contains fn

/-- The snooze-expiry sweep of Repos.__init__: with threshold
now - snooze_seconds, every entry whose timestamp t satisfies
threshold >= t is deleted; the rest are kept. -/
def snoozeCleanup (sn : List (String × Int)) (now snooze_seconds : Int) :
    List (String × Int) :=
  sn.filter (fun p => decide (now - snooze_seconds < p.2))

/-- Repos.__init__: build the watchlist, sweeping expired snooze entries. -/
def reposInit (sn : List (String × Int)) (zap : List String)
    (now snooze_seconds : Int) : Watchlist :=
  { snooze := snoozeCleanup sn now snooze_seconds, zap := zap }

/-- Repos.snooze: record the current time for the name (dict assignment,
overwriting any prior entry). -/
def Watchlist.addSnooze (w : Watchlist) (fn : String) (now : Int) : Watchlist :=
  { w with snooze := setAssoc w.snooze fn now }

/-! ### The persisted store (class Data) -/

/-- A persisted store (class Data): the in-memory mapping, the dirty flag
self.updated, and the backing file modelled by its parsed contents plus a
count of the physical writes performed. -/
structure Store (α : Type) where
  data : List (String × α)
  updated : Bool
  fileContents : Option (List (String × α))
  fileWrites : Nat
deriving Repr, DecidableEq

/-- Data.save: a no-op while the dirty flag is clear; otherwise serialize
the full in-memory mapping to the file (one physical write, overwriting)
and clear the flag. -/
def Store.save {α : Type} (s : Store α) : Store α :=
  if s.updated then
    { s with fileContents := some s.data, updated := false,
             fileWrites := s.fileWrites + 1 }
  else s

/-- Data.__setitem__: store the value and set the dirty flag. -/
def Store.setItem {α : Type} (s : Store α) (k : String) (v : α) : Store α :=
  { s with data := setAssoc s.data k v, updated := true }

/-- Data.__delitem__: delete the key and set the dirty flag; a missing key
raises KeyError (modelled as none) before the flag is touched. -/
def Store.delItem {α : Type} (s : Store α) (k : String) : Option (Store α) :=
  if s.data.any (fun p => p.1 == k) then
    some { s with data := s.data.filter (fun p => p.1 != k), updated := true }
  else none

/-! ### Rate-limited requests (Cache.gh_req) -/

/-- One remembered rate-limit state: the X-RateLimit-Remaining count and
the X-RateLimit-Reset epoch time of the last response of its class. -/
structure RateLimit where
  remain : Int
  reset : Int
deriving Repr, DecidableEq

/-- The two persisted rate-limit slots of the cache store, keys
api_rl_search and api_rl_general; none models an absent key. -/
structure ApiState where
  api_rl_search : Option RateLimit := none
  api_rl_general : Option RateLimit := none
deriving Repr, DecidableEq

/-- Scan of a character list for an occurrence of the needle. -/
def containsSub (needle : List Char) : List Char → Bool
  | [] => needle.isPrefixOf ([] : List Char)
  | c :: cs => needle.isPrefixOf (c :: cs) || containsSub needle cs

/-- Python substring test needle in hay. -/
def strContains (hay needle : String) : Bool :=
  containsSub needle.data hay.data

/-- An HTTP response as gh_req reads it: the status code and the two
rate-limit headers. -/
structure HttpResponse where
  status : Int
  rlRemaining : Int
  rlReset : Int
deriving Repr, DecidableEq

/-- The rate-limit state gh_req consults for a URL: the search slot when
the URL contains /search/, the general slot otherwise, defaulting to
remain 1, reset 0 when the key is absent. -/
def rlFor (st : ApiState) (url : String) : RateLimit :=
  (if strContains url "/search/" then st.api_rl_search
   else st.api_rl_general).getD { remain := 1, reset := 0 }

/-- What one call of Cache.gh_req does: the time the HTTP request is
issued, the updated rate-limit state, and whether raise_for_status
raised. -/
structure GhReqResult where
  issueTime : Int
  state : ApiState
  raised : Bool
deriving Repr, DecidableEq

/-- Cache.gh_req: look up the rate-limit state for the class of the URL;
when remain is 0 and the reset time is still in the future, sleep for
reset - now seconds before issuing the request (so the request goes out
at the reset time); in every other state issue it at once. Then store
the remaining-count and reset headers of the response into the slot of
the class, and finally raise_for_status (which raises exactly on a
4xx or 5xx status) unless the caller passed raise_error False. -/
def gh_req (st : ApiState) (url : String) (raiseError : Bool) (now : Int)
    (resp : HttpResponse) : GhReqResult :=
  let rl := rlFor st url
  let issueTime := if rl.remain = 0 ∧ now < rl.reset then rl.reset else now
  let rlNew : RateLimit := { remain := resp.rlRemaining, reset := resp.rlReset }
  let stNew := if strContains url "/search/" then
      { st with api_rl_search := some rlNew }
    else
      { st with api_rl_general := some rlNew }
  let raised := raiseError && decide (400 ≤ resp.status ∧ resp.status < 600)
  { issueTime := issueTime, state := stNew, raised := raised }

/-! ### Trend-feed language normalization (Cache.fetch_trend) -/

/-- Python str.lower (ASCII, the only case the feed languages hit),
character by character. -/
def pyLower (s : String) : String :=
  ⟨s.data.map Char.toLower⟩

/-- Python str.replace specialized to the fixed pattern of the source,
lang.lower().replace(c++, cpp): a left-to-right non-overlapping scan. -/
def replaceCppGo : List Char → List Char
  | 'c' :: '+' :: '+' :: rest => 'c' :: 'p' :: 'p' :: replaceCppGo rest
  | c :: rest => c :: replaceCppGo rest
  | [] => []

/-- The per-language normalization of Cache.fetch_trend: the empty string
becomes Unknown, then lowercase, then every c++ becomes cpp. -/
def normTrendLang (lang : String) : String :=
  let l := if lang == "" then "Unknown" else lang
  ⟨replaceCppGo (pyLower l).data⟩

/-- RSS_URL_BASE with the language and period substituted. -/
def trendURL (lang period : String) : String :=
  "http://github-trends.ryotarai.info/rss/github_trends_" ++ lang ++ "_" ++
    period ++ ".rss"

/-- The feed URLs Cache.fetch_trend builds: one per configured language,
each normalized before substitution into the URL template. -/
def fetchTrendURLs (langs : List String) (period : String) : List String :=
  langs.map (fun l => trendURL (normTrendLang l) period)

/-! ### The three fetch routines -/

/-- The fields of one item of the search-API response that
Cache.fetch_search reads (language, homepage and description can be
JSON null). -/
structure SearchItem where
  full_name : String
  owner_login : String
  name : String
  language : Option String
  stargazers_count : Int
  forks_count : Int
  html_url : String
  homepage : Option String
  description : Option String
deriving Repr, DecidableEq

/-- The record Cache.fetch_search builds from one search result. -/
def buildSearchRecord (r : SearchItem) : RepoRecord :=
  { full_name := r.full_name
    user := r.owner_login
    repo := r.name
    language := r.language
    stargazers_count := r.stargazers_count
    forks_count := r.forks_count
    html_url := r.html_url
    homepage := r.homepage
    description := r.description
    license := none }

/-- Python lang in langs for an optional language: a null language is in
no list of strings. -/
def langMem (langs : List String) : Option String → Bool
  | some l => langs.contains l
  | none => false

/-- The body of the result loop of Cache.fetch_search: build the record,
skip it when a filter matches, when the name is already in the pending
cache or the watchlist, or when the language allow-list (with All as the
wildcard) rejects it; otherwise add it to the pending cache. -/
def searchStep (config : Config) (wl : Watchlist) (st : RepoMap)
    (item : SearchItem) : RepoMap :=
  let r := buildSearchRecord item
  let fn := item.full_name
  if filter_repo r config then st
  else if (namesOf st).contains fn || wl.isKnown fn then st
  else if config.accept_languages.contains "All" ||
      langMem config.accept_languages item.language then st ++ [(fn, r)]
  else st

/-- Cache.fetch_search over the returned items, in order. -/
def fetch_search (config : Config) (wl : Watchlist) (items : List SearchItem)
    (st : RepoMap) : RepoMap :=
  items.foldl (searchStep config wl) st

/-- A trend-feed entry after the title parsing of Cache.fetch_trend_lang
(the title is split at its first space into full_name and a remainder,
the language is the part of the remainder after the separator, full_name
is split at the slash into user and repo; an entry whose title lacks this
shape crashes the Python run, so it is outside the model). description
is the rstripped entry description, or the empty string when absent. -/
structure TrendEntry where
  full_name : String
  user : String
  repo : String
  language : String
  link : String
  description : String
deriving Repr, DecidableEq

/-- The record Cache.fetch_trend_lang builds from one feed entry: star
and fork counts get the sentinel -1, homepage is null. -/
def buildTrendRecord (e : TrendEntry) : RepoRecord :=
  { full_name := e.full_name
    user := e.user
    repo := e.repo
    language := some e.language
    stargazers_count := -1
    forks_count := -1
    html_url := e.link
    homepage := none
    description := some e.description
    license := none }

/-- The body of the entry loop of Cache.fetch_trend_lang: build the
record, skip it when a filter matches or the name is already known; the
language allow-list is not consulted. -/
def trendStep (config : Config) (wl : Watchlist) (st : RepoMap)
    (e : TrendEntry) : RepoMap :=
  let r := buildTrendRecord e
  let fn := e.full_name
  if filter_repo r config then st
  else if (namesOf st).contains fn || wl.isKnown fn then st
  else st ++ [(fn, r)]

/-- Cache.fetch_trend_lang over the feed entries, in order. -/
def fetch_trend_lang (config : Config) (wl : Watchlist)
    (entries : List TrendEntry) (st : RepoMap) : RepoMap :=
  entries.foldl (trendStep config wl) st

/-- The languages field of a trend fetch source: either a literal list or
the string accept_languages, standing for the configured allow-list. -/
inductive TrendLangs where
  | list : List String → TrendLangs
  | acceptLanguages : TrendLangs

/-- Cache.fetch_trend: resolve the language list, then for each language
normalize it, build the feed URL, and run fetch_trend_lang on the parsed
feed (modelled as a function from feed URL to entries). -/
def fetch_trend (config : Config) (wl : Watchlist) (langsSpec : TrendLangs)
    (period : String) (feed : String → List TrendEntry) (st : RepoMap) :
    RepoMap :=
  let langs := match langsSpec with
    | .list ls => ls
    | .acceptLanguages => config.accept_languages
  langs.foldl
    (fun s l =>
      fetch_trend_lang config wl (feed (trendURL (normTrendLang l) period)) s)
    st

/-- Python str.title as Cache.fetch_cghp uses it on ASCII flair labels: a
character after a letter is lowercased, any other character is
uppercased. -/
def pyTitleGo : List Char → Bool → List Char
  | [], _ => []
  | c :: cs, prevAlpha =>
    (if prevAlpha then c.toLower else c.toUpper) :: pyTitleGo cs c.isAlpha

/-- Python str.title on a string. -/
def pyTitle (s : String) : String :=
  ⟨pyTitleGo s.data false⟩

/-- Python str.replace specialized to the fixed pattern of
flair.replace(CPP, C++) in Cache.fetch_cghp. -/
def replaceCPPUpperGo : List Char → List Char
  | 'C' :: 'P' :: 'P' :: rest => 'C' :: '+' :: '+' :: replaceCPPUpperGo rest
  | c :: rest => c :: replaceCPPUpperGo rest
  | [] => []

/-- One child of the r/coolgithubprojects listing as Cache.fetch_cghp
reads it; urlMatch carries the two capture groups of CGHP_RE when the
regular expression matches the posted URL, and none otherwise. -/
structure CghpItem where
  url : String
  link_flair_text : String
  title : String
  urlMatch : Option (String × String)
deriving Repr, DecidableEq

/-- The body of the item loop of Cache.fetch_cghp: skip (with a warning)
items whose URL does not match the pattern; otherwise normalize the flair
into a language, build the record with sentinel counts -2, and apply the
filter, already-known and language-allow-list checks as in the search
case. -/
def cghpStep (config : Config) (wl : Watchlist) (st : RepoMap)
    (item : CghpItem) : RepoMap :=
  match item.urlMatch with
  | none => st
  | some (user, repo) =>
    let fn := user ++ "/" ++ repo
    let lang := pyTitle ⟨replaceCPPUpperGo item.link_flair_text.data⟩
    let r : RepoRecord :=
      { full_name := fn
        user := user
        repo := repo
        language := some lang
        stargazers_count := -2
        forks_count := -2
        html_url := item.url
        homepage := none
        description := some item.title
        license := none }
    if filter_repo r config then st
    else if (namesOf st).contains fn || wl.isKnown fn then st
    else if config.accept_languages.contains "All" ||
        config.accept_languages.contains lang then st ++ [(fn, r)]
    else st

/-- Cache.fetch_cghp over the listing items, in order. -/
def fetch_cghp (config : Config) (wl : Watchlist) (items : List CghpItem)
    (st : RepoMap) : RepoMap :=
  items.foldl (cghpStep config wl) st

/-- The full name a social-feed item would be cached under: the two
capture groups joined by a slash (irrelevant for unmatched items, which
are skipped). -/
def cghpKey (item : CghpItem) : String :=
  match item.urlMatch with
  | none => ""
  | some (user, repo) => user ++ "/" ++ repo

/-! ### License pre-check (check_license and its call site in main) -/

/-- check_license: the repo counts as licensed exactly when the scoped
code search reports a positive match count. -/
def check_license (total_count : Int) : Bool :=
  decide (0 < total_count)

/-- What the license block of main does to one pending record: the
resulting pending cache and snooze store, whether the code-search query
was issued, and whether the flow continues to the interactive prompt. -/
structure ReviewResult where
  repos : RepoMap
  snooze : List (String × Int)
  queried : Bool
  prompt : Bool
deriving Repr, DecidableEq

/-- The license block of main for the record r of name fn: when the
license key is already present, nothing is queried and the record goes on
to be shown; otherwise the check runs once and its boolean result is
stored on the record in the cache; an unlicensed record is snoozed at the
current time and removed from the pending cache with no prompt. -/
def licenseStep (repos : RepoMap) (sn : List (String × Int)) (fn : String)
    (r : RepoRecord) (total_count : Int) (now : Int) : ReviewResult :=
  match r.license with
  | some _ => { repos := repos, snooze := sn, queried := false, prompt := true }
  | none =>
    let lic := check_license total_count
    let repos1 := setAssoc repos fn { r with license := some lic }
    if lic then
      { repos := repos1, snooze := sn, queried := true, prompt := true }
    else
      { repos := repos1.filter (fun p => p.1 != fn)
        snooze := setAssoc sn fn now
        queried := true
        prompt := false }

/-! ### The fetch dispatcher (Cache.fetch) -/

/-- One configured fetch source: its key, its type string, and its
interval in seconds. -/
structure FetchSource where
  key : String
  type : String
  interval : Int
deriving Repr, DecidableEq

/-- The dispatcher state: the per-source last-fetch timestamps
self[fetches], plus the keys dispatched so far this run (observing which
sources were processed). -/
structure FetchState where
  fetches : List (String × Int)
  dispatched : List String
deriving Repr, DecidableEq

/-- Python dict get with default None. -/
def lookupAssoc {β : Type} (m : List (String × β)) (k : String) : Option β :=
  (m.find? (fun p => p.1 == k)).map Prod.snd

/-- The three fetch types Cache.fetch recognizes. -/
def KNOWN_FETCH_TYPES : List String :=
  ["search", "trend", "r/coolgithubprojects"]

/-- The dispatch part of one loop iteration of Cache.fetch: a recognized
type runs its fetch routine and then records the (post-dispatch) current
time under the source key; an unknown type logs an error and continues
without touching the timestamp. -/
def fetchDispatch (st : FetchState) (f : FetchSource) (timeAfter : Int) :
    FetchState :=
  if KNOWN_FETCH_TYPES.contains f.type then
    { fetches := setAssoc st.fetches f.key timeAfter
      dispatched := st.dispatched ++ [f.key] }
  else st

/-- One loop iteration of Cache.fetch for the source f: skip it when a
last-fetch time t is recorded and now - interval < t; otherwise dispatch.
now is the clock at the interval test, timeAfter the clock after the
dispatch returns. -/
def fetchStep (st : FetchState) (f : FetchSource) (now timeAfter : Int) :
    FetchState :=
  match lookupAssoc st.fetches f.key with
  | some t => if now - f.interval < t then st else fetchDispatch st f timeAfter
  | none => fetchDispatch st f timeAfter

/-- Cache.fetch over the configured sources in order, each iteration with
its own pair of clock readings. -/
def fetchRun (st : FetchState) : List (FetchSource × Int × Int) → FetchState
  | [] => st
  | (f, now, timeAfter) :: rest => fetchRun (fetchStep st f now timeAfter) rest

/-! ### Concrete fixtures used by the witness theorems -/

/-- A search result whose repo name a sample filter matches. -/
def sampleItemA : SearchItem :=
  { full_name := "alice/badtool"
    owner_login := "alice"
    name := "badtool"
    language := some "Python"
    stargazers_count := 5
    forks_count := 1
    html_url := "https://github.com/alice/badtool"
    homepage := none
    description := some "a tool" }

/-- A search result that passes every check of fetch_search. -/
def sampleItemB : SearchItem :=
  { full_name := "bob/goodtool"
    owner_login := "bob"
    name := "goodtool"
    language := some "Python"
    stargazers_count := 9
    forks_count := 2
    html_url := "https://github.com/bob/goodtool"
    homepage := none
    description := some "another tool" }

/-- A configuration with one repo-name filter and a Python-only
allow-list. -/
def sampleConfig : Config :=
  { accept_languages := ["Python"]
    filters_repo := [fun s => s == "badtool"]
    filters_description := []
    snooze_seconds := 604800 }

/-- A watchlist with one snoozed and one zapped name. -/
def sampleWatchlist : Watchlist :=
  { snooze := [("zed/old", 50)]
    zap := ["yana/gone"] }

/-- A trend entry whose language is outside the sample allow-list. -/
def sampleTrendEntry : TrendEntry :=
  { full_name := "carol/trendy"
    user := "carol"
    repo := "trendy"
    language := "Rust"
    link := "https://github.com/carol/trendy"
    description := "" }

/-- A pending record that has not had its license checked yet. -/
def sampleRecord : RepoRecord :=
  buildSearchRecord sampleItemB

/-- A fetch source of the search type. -/
def sampleSource : FetchSource :=
  { key := "k1", type := "search", interval := 3600 }

/-- A fetch source of a type the dispatcher does not recognize. -/
def sampleOddSource : FetchSource :=
  { key := "k2", type := "gopher", interval := 3600 }

/-! ## Theorems -/

/-- Setting a key stores that binding: the pair is an entry of the result,
whether the key was overwritten in place or appended. -/
theorem mem_setAssoc_self {β : Type} (m : List (String × β)) (k : String)
    (v : β) : (k, v) ∈ setAssoc m k v := by
  induction m with
  | nil => simp [setAssoc]
  | cons p rest ih =>
    simp only [setAssoc]
    split
    · exact List.mem_cons_self _ _
    · exact List.mem_cons_of_mem _ ih

/-- Looking up a key just set yields the new value. -/
theorem lookupAssoc_setAssoc_self {β : Type} (m : List (String × β))
    (k : String) (v : β) : lookupAssoc (setAssoc m k v) k = some v := by
  induction m with
  | nil => simp [setAssoc, lookupAssoc]
  | cons p rest ih =>
    simp only [setAssoc]
    split
    · simp [lookupAssoc]
    · rename_i hp
      show (List.find? (fun q => q.1 == k) (p :: setAssoc rest k v)).map
        Prod.snd = some v
      rw [List.find?_cons_of_neg _ (by simpa using hp)]
      exact ih

/-- Deleting a key from an association list by filtering removes every
entry carrying it. -/
theorem not_mem_namesOf_filterKey {β : Type} (m : List (String × β))
    (fn : String) : fn ∉ namesOf (m.filter (fun p => p.1 != fn)) := by
  intro h
  simp only [namesOf, List.mem_map] at h
  obtain ⟨p, hp, hpk⟩ := h
  have h2 := (List.mem_filter.mp hp).2
  simp only [bne_iff_ne, ne_eq, decide_eq_true_eq] at h2
  exact h2 hpk

/-- Two entries of an association list with no duplicate keys that share a
key are the same entry. -/
theorem eq_of_mem_of_nodup_keys {β : Type} {m : List (String × β)}
    (h : (namesOf m).Nodup) {p q : String × β}
    (hp : p ∈ m) (hq : q ∈ m) (hk : p.1 = q.1) : p = q := by
  induction m with
  | nil => cases hp
  | cons x xs ih =>
    simp only [namesOf, List.map_cons, List.nodup_cons] at h
    rcases List.mem_cons.mp hp with hpx | hpxs
    · rcases List.mem_cons.mp hq with hqx | hqxs
      · exact hpx.trans hqx.symm
      · exfalso
        apply h.1
        rw [hpx] at hk
        rw [hk]
        exact List.mem_map_of_mem Prod.fst hqxs
    · rcases List.mem_cons.mp hq with hqx | hqxs
      · exfalso
        apply h.1
        rw [hqx] at hk
        rw [← hk]
        exact List.mem_map_of_mem Prod.fst hpxs
      · exact ih h.2 hpxs hqxs

/-- C4: on Watchlist construction with snooze duration S, every snooze
entry aged now - t >= S is deleted (and, when the name is not zapped and
snooze keys are unique as in a Python dict, the name is no longer known,
hence eligible for re-fetch), while every entry aged now - t < S is kept
unchanged. -/
theorem repos_init_snooze_expiry (sn : List (String × Int)) (zap : List String)
    (now S : Int) (fn : String) (t : Int) (hmem : (fn, t) ∈ sn) :
    (S ≤ now - t → (fn, t) ∉ (reposInit sn zap now S).snooze) ∧
    (S ≤ now - t → (namesOf sn).Nodup → zap.contains fn = false →
       (reposInit sn zap now S).isKnown fn = false) ∧
    (now - t < S → (fn, t) ∈ (reposInit sn zap now S).snooze) := by
  refine ⟨fun hexp hin => ?_, fun hexp hnd hz => ?_, fun hkeep => ?_⟩
  · simp only [reposInit, snoozeCleanup, List.mem_filter,
      decide_eq_true_eq] at hin
    omega
  · simp only [reposInit, Watchlist.isKnown, hz, Bool.or_false,
      snoozeCleanup, List.any_eq_false, List.mem_filter,
      decide_eq_true_eq, beq_iff_eq]
    rintro ⟨k, v⟩ ⟨hkv, hv⟩ hkfn
    have : ((k, v) : String × Int) = (fn, t) :=
      eq_of_mem_of_nodup_keys hnd hkv hmem hkfn
    have hvt : v = t := congrArg Prod.snd this
    omega
  · simp only [reposInit, snoozeCleanup, List.mem_filter,
      decide_eq_true_eq]
    exact ⟨hmem, by omega⟩

/-- C4 witness: the general theorem at a concrete instance, where one
stale entry is purged and a fresh one is kept. -/
theorem repos_init_snooze_expiry_witness :
    (((7:Int) ≤ 100 - 10) ∧
       ((("old", (10:Int)) ∈ ([(("old":String), (10:Int))] : List (String × Int))) ∧
        ("old", (10:Int)) ∉ (reposInit [("old", 10)] [] 100 7).snooze)) ∧
    ((100:Int) - 98 < 7 ∧
       ("new", (98:Int)) ∈ (reposInit [("new", 98)] [] 100 7).snooze) := by
  refine ⟨⟨by decide, by decide, ?_⟩, ⟨by decide, ?_⟩⟩
  · exact (repos_init_snooze_expiry [("old", 10)] [] 100 7 "old" 10
      (by decide)).1 (by decide)
  · exact (repos_init_snooze_expiry [("new", 98)] [] 100 7 "new" 98
      (by decide)).2.2 (by decide)

/-- C3: save is gated by the dirty flag: two saves in a row perform at most
one physical write (the second is a no-op), save on a clean store is the
identity, save on a dirty store serializes the full in-memory mapping and
clears the flag, and the mutating mapping operations set the flag. -/
theorem store_save_dirty_gating {α : Type} (s : Store α) (k : String) (v : α) :
    (s.save.save.fileWrites ≤ s.fileWrites + 1) ∧
    (s.save.save = s.save) ∧
    (s.updated = false → s.save = s) ∧
    (s.updated = true →
       s.save.fileContents = some s.data ∧ s.save.updated = false ∧
       s.save.fileWrites = s.fileWrites + 1) ∧
    ((s.setItem k v).updated = true) ∧
    (∀ s2, s.delItem k = some s2 → s2.updated = true) := by
  refine ⟨?_, ?_, fun hc => ?_, fun hd => ?_, rfl, fun s2 h => ?_⟩
  · cases hu : s.updated <;> simp [Store.save, hu]
  · cases hu : s.updated <;> simp [Store.save, hu]
  · simp [Store.save, hc]
  · simp [Store.save, hd]
  · simp only [Store.delItem] at h
    split at h
    · cases h
      rfl
    · cases h

/-- C3 witness: the theorem at a concrete clean store and a concrete dirty
store of natural-number values. -/
theorem store_save_dirty_gating_witness :
    ((Store.mk [("a", 1)] false none 0 : Store Nat).updated = false ∧
       (Store.mk [("a", 1)] false none 0 : Store Nat).save =
         Store.mk [("a", 1)] false none 0) ∧
    ((Store.mk [("a", 1)] true none 0 : Store Nat).updated = true ∧
       (Store.mk [("a", 1)] true none 0 : Store Nat).save.updated = false) ∧
    ((Store.mk [("a", 1)] true none 0 : Store Nat).delItem "a" =
        some (Store.mk [] true none 0) ∧
       (Store.mk ([] : List (String × Nat)) true none 0).updated = true) := by
  refine ⟨⟨rfl, ?_⟩, ⟨rfl, ?_⟩, ⟨by decide, ?_⟩⟩
  · exact (store_save_dirty_gating (Store.mk [("a", 1)] false none 0) "a"
      1).2.2.1 rfl
  · exact ((store_save_dirty_gating (Store.mk [("a", 1)] true none 0) "a"
      1).2.2.2.1 rfl).2.1
  · exact (store_save_dirty_gating (Store.mk [("a", 1)] true none 0) "a"
      1).2.2.2.2.2 (Store.mk [] true none 0) (by decide)

/-- C2: the rate-limit gate of gh_req: when the remembered state of the
class of the URL has remaining quota 0 and a reset time strictly in the
future, the request is issued exactly at the reset time (never before);
in every other state it is issued immediately at the current time. -/
theorem gh_req_rate_limit_gate (st : ApiState) (url : String)
    (raiseError : Bool) (now : Int) (resp : HttpResponse) :
    ((rlFor st url).remain = 0 ∧ now < (rlFor st url).reset →
       (gh_req st url raiseError now resp).issueTime = (rlFor st url).reset ∧
       ¬(gh_req st url raiseError now resp).issueTime < (rlFor st url).reset) ∧
    (¬((rlFor st url).remain = 0 ∧ now < (rlFor st url).reset) →
       (gh_req st url raiseError now resp).issueTime = now) := by
  refine ⟨fun h => ?_, fun h => ?_⟩
  · have hit : (gh_req st url raiseError now resp).issueTime =
        (rlFor st url).reset := by
      show (if (rlFor st url).remain = 0 ∧ now < (rlFor st url).reset then
          (rlFor st url).reset else now) = (rlFor st url).reset
      rw [if_pos h]
    exact ⟨hit, by rw [hit]; exact lt_irrefl _⟩
  · show (if (rlFor st url).remain = 0 ∧ now < (rlFor st url).reset then
        (rlFor st url).reset else now) = now
    rw [if_neg h]

/-- C2 witness: with the search-class state exhausted (remain 0, reset 100)
and now 5, the search request is issued at time 100, not at 5. -/
theorem gh_req_rate_limit_gate_witness :
    ((rlFor (ApiState.mk (some (RateLimit.mk 0 100)) none)
        "https://api.github.com/search/repositories").remain = 0 ∧
      (5:Int) < (rlFor (ApiState.mk (some (RateLimit.mk 0 100)) none)
        "https://api.github.com/search/repositories").reset) ∧
    (gh_req (ApiState.mk (some (RateLimit.mk 0 100)) none)
       "https://api.github.com/search/repositories" true 5
       (HttpResponse.mk 200 9 200)).issueTime = 100 := by
  refine ⟨by decide, ?_⟩
  exact (gh_req_rate_limit_gate (ApiState.mk (some (RateLimit.mk 0 100)) none)
    "https://api.github.com/search/repositories" true 5
    (HttpResponse.mk 200 9 200)).1 (by decide) |>.1

/-- C8: trend-feed language normalization maps C++ to the feed-URL segment
cpp and the empty string to unknown, and the normalized segment is what is
substituted into the feed-URL template for every configured language. -/
theorem trend_lang_normalization :
    normTrendLang "C++" = "cpp" ∧
    normTrendLang "" = "unknown" ∧
    trendURL (normTrendLang "C++") "daily" =
      "http://github-trends.ryotarai.info/rss/github_trends_cpp_daily.rss" ∧
    fetchTrendURLs ["C++", ""] "weekly" =
      [trendURL "cpp" "weekly", trendURL "unknown" "weekly"] := by
  refine ⟨by decide, by decide, by decide, by decide⟩

/-- C5: the license pre-check declares a repo licensed exactly when the
code-search match count is positive; a record whose license key is
already present is never re-queried; on a zero count the record leaves
the pending cache and enters the snooze store stamped with the current
time, with no prompt; on a positive count the boolean is cached on the
record in the pending cache. -/
theorem license_precheck (repos : RepoMap) (sn : List (String × Int))
    (fn : String) (r : RepoRecord) (total_count : Int) (now : Int) :
    (check_license total_count = true ↔ 0 < total_count) ∧
    (∀ b, r.license = some b →
       licenseStep repos sn fn r total_count now =
         { repos := repos, snooze := sn, queried := false, prompt := true }) ∧
    (r.license = none → total_count ≤ 0 →
       fn ∉ namesOf (licenseStep repos sn fn r total_count now).repos ∧
       (fn, now) ∈ (licenseStep repos sn fn r total_count now).snooze ∧
       (licenseStep repos sn fn r total_count now).prompt = false ∧
       (licenseStep repos sn fn r total_count now).queried = true) ∧
    (r.license = none → 0 < total_count →
       (fn, { r with license := some true }) ∈
         (licenseStep repos sn fn r total_count now).repos ∧
       (licenseStep repos sn fn r total_count now).prompt = true ∧
       (licenseStep repos sn fn r total_count now).queried = true) := by
  refine ⟨by simp [check_license], fun b hb => ?_, fun hn ht => ?_,
    fun hn ht => ?_⟩
  · simp [licenseStep, hb]
  · have hlic : check_license total_count = false := by
      simp only [check_license, decide_eq_false_iff_not]
      omega
    refine ⟨?_, ?_, ?_, ?_⟩
    · simp only [licenseStep, hn, hlic, Bool.false_eq_true, if_false]
      exact not_mem_namesOf_filterKey _ fn
    · simp only [licenseStep, hn, hlic, Bool.false_eq_true, if_false]
      exact mem_setAssoc_self sn fn now
    · simp [licenseStep, hn, hlic]
    · simp [licenseStep, hn, hlic]
  · have hlic : check_license total_count = true := by
      simp only [check_license, decide_eq_true_eq]
      omega
    refine ⟨?_, ?_, ?_⟩
    · simp only [licenseStep, hn, hlic, if_true]
      exact mem_setAssoc_self repos fn { r with license := some true }
    · simp [licenseStep, hn, hlic]
    · simp [licenseStep, hn, hlic]

/-- C5 witness: the theorem at a concrete unchecked record with zero
matches (auto-snoozed, no prompt) and at an already-checked record (no
query issued). -/
theorem license_precheck_witness :
    (sampleRecord.license = none ∧ (0:Int) ≤ 0 ∧
       "bob/goodtool" ∉
         namesOf (licenseStep [("bob/goodtool", sampleRecord)] [] "bob/goodtool"
           sampleRecord 0 42).repos ∧
       ("bob/goodtool", (42:Int)) ∈
         (licenseStep [("bob/goodtool", sampleRecord)] [] "bob/goodtool"
           sampleRecord 0 42).snooze ∧
       (licenseStep [("bob/goodtool", sampleRecord)] [] "bob/goodtool"
         sampleRecord 0 42).prompt = false) ∧
    ({ sampleRecord with license := some true }.license = some true ∧
       (licenseStep [] [] "bob/goodtool"
         { sampleRecord with license := some true } 7 42).queried = false) := by
  have h := license_precheck [("bob/goodtool", sampleRecord)] [] "bob/goodtool"
    sampleRecord 0 42
  have h3 := h.2.2.1 (by decide) (by decide)
  refine ⟨⟨by decide, by decide, h3.1, h3.2.1, h3.2.2.1⟩, ⟨rfl, ?_⟩⟩
  have h2 := (license_precheck [] [] "bob/goodtool"
    { sampleRecord with license := some true } 7 42).2.1 true rfl
  rw [h2]

/-- C9 counterexample: gh_req does not raise on every non-2xx status even
with raise_error left at its default True: a 301 response (non-2xx) is
outside the 4xx/5xx range that raise_for_status raises on, so nothing is
raised. -/
theorem gh_req_non2xx_counterexample :
    ((301:Int) < 200 ∨ 300 ≤ (301:Int)) ∧
    (gh_req (ApiState.mk none none) "https://api.github.com/repos/a/b/readme"
       true 0 (HttpResponse.mk 301 55 99)).raised = false := by
  exact ⟨Or.inr (by decide), by decide⟩

/-- C9 amended: gh_req raises exactly when the caller did not opt out via
raise_error False and the status is a 4xx or 5xx client or server error
(raise_for_status is silent on 1xx/3xx); and in every case, raised or
not, the rate-limit slot of the class of the URL is updated from the
remaining-count and reset-timestamp headers of the response. -/
theorem gh_req_raise_and_rl_update (st : ApiState) (url : String)
    (raiseError : Bool) (now : Int) (resp : HttpResponse) :
    ((gh_req st url raiseError now resp).raised = true ↔
       raiseError = true ∧ 400 ≤ resp.status ∧ resp.status < 600) ∧
    rlFor (gh_req st url raiseError now resp).state url =
      { remain := resp.rlRemaining, reset := resp.rlReset } := by
  constructor
  · show (raiseError && decide (400 ≤ resp.status ∧ resp.status < 600)) =
      true ↔ _
    simp [Bool.and_eq_true, decide_eq_true_eq, and_assoc]
  · show rlFor (if strContains url "/search/" then _ else _) url = _
    cases hc : strContains url "/search/" <;> simp [rlFor, hc]

/-- C10: a source with no recorded last-fetch time is always dispatched; a
source with recorded time t is skipped exactly while now - interval < t;
a recognized dispatch records the post-dispatch time under the source
key and is observable in the dispatched list; an unrecognized type leaves
the state untouched and the run continues with the remaining sources. -/
theorem fetch_dispatch_due (st : FetchState) (f : FetchSource)
    (now timeAfter : Int) (rest : List (FetchSource × Int × Int)) :
    (lookupAssoc st.fetches f.key = none →
       fetchStep st f now timeAfter = fetchDispatch st f timeAfter) ∧
    (∀ t, lookupAssoc st.fetches f.key = some t → now - f.interval < t →
       fetchStep st f now timeAfter = st) ∧
    (∀ t, lookupAssoc st.fetches f.key = some t → t ≤ now - f.interval →
       fetchStep st f now timeAfter = fetchDispatch st f timeAfter) ∧
    (KNOWN_FETCH_TYPES.contains f.type = true →
       lookupAssoc (fetchDispatch st f timeAfter).fetches f.key =
           some timeAfter ∧
       (fetchDispatch st f timeAfter).dispatched =
           st.dispatched ++ [f.key]) ∧
    (KNOWN_FETCH_TYPES.contains f.type = false →
       fetchDispatch st f timeAfter = st ∧
       fetchRun st ((f, now, timeAfter) :: rest) = fetchRun st rest) := by
  refine ⟨fun hnone => ?_, fun t ht hlt => ?_, fun t ht hge => ?_,
    fun hrec => ?_, fun hodd => ?_⟩
  · simp [fetchStep, hnone]
  · simp [fetchStep, ht, hlt]
  · have : ¬(now - f.interval < t) := by omega
    simp [fetchStep, ht, this]
  · have hmemt : f.type ∈ KNOWN_FETCH_TYPES := by simpa using hrec
    constructor
    · simp only [fetchDispatch, hrec, if_true]
      exact lookupAssoc_setAssoc_self st.fetches f.key timeAfter
    · simp [fetchDispatch, hmemt]
  · have hmemt : f.type ∉ KNOWN_FETCH_TYPES := by simpa using hodd
    have hd : fetchDispatch st f timeAfter = st := by
      simp [fetchDispatch, hmemt]
    refine ⟨hd, ?_⟩
    show fetchRun (fetchStep st f now timeAfter) rest = fetchRun st rest
    have hs : fetchStep st f now timeAfter = st := by
      unfold fetchStep
      cases lookupAssoc st.fetches f.key with
      | none => exact hd
      | some t =>
        simp only []
        split
        · rfl
        · exact hd
    rw [hs]

/-- C10 witness: the theorem at a never-fetched search source (dispatched,
timestamp recorded) and at an unrecognized source type (skipped, run
continues). -/
theorem fetch_dispatch_due_witness :
    (lookupAssoc (FetchState.mk [] []).fetches sampleSource.key = none ∧
       KNOWN_FETCH_TYPES.contains sampleSource.type = true ∧
       lookupAssoc
           (fetchStep (FetchState.mk [] []) sampleSource 1000 1005).fetches
           sampleSource.key = some 1005) ∧
    (KNOWN_FETCH_TYPES.contains sampleOddSource.type = false ∧
       fetchDispatch (FetchState.mk [("k1", 3)] []) sampleOddSource 99 =
         FetchState.mk [("k1", 3)] []) := by
  have h := fetch_dispatch_due (FetchState.mk [] []) sampleSource 1000 1005 []
  refine ⟨⟨by decide, by decide, ?_⟩, by decide, ?_⟩
  · rw [h.1 (by decide)]
    exact (h.2.2.2.1 (by decide)).1
  · exact ((fetch_dispatch_due (FetchState.mk [("k1", 3)] []) sampleOddSource
      99 0 []).2.2.2.2 (by decide)).1

/-- Appending an entry with a different key changes no count of the
original key. -/
theorem countName_append_single {k fn : String} {r : RepoRecord}
    (st : RepoMap) (hne : k ≠ fn) :
    countName (st ++ [(k, r)]) fn = countName st fn := by
  simp [countName, List.countP_append, List.countP_cons, hne]

/-- Each iteration of the fetch_search loop leaves the cache unchanged or
appends exactly the record of the item, and only when the full name
passed the already-known check against the current cache and the
watchlist. -/
theorem searchStep_shape (config : Config) (wl : Watchlist) :
    ∀ (st : RepoMap) (item : SearchItem),
      searchStep config wl st item = st ∨
      ∃ r, searchStep config wl st item = st ++ [(item.full_name, r)] ∧
        ((namesOf st).contains item.full_name ||
          wl.isKnown item.full_name) = false := by
  intro st item
  simp only [searchStep]
  split
  · exact Or.inl rfl
  · split
    · exact Or.inl rfl
    · split
      · rename_i hf hknown hlang
        exact Or.inr ⟨buildSearchRecord item, rfl, Bool.eq_false_iff.mpr hknown⟩
      · exact Or.inl rfl

/-- Each iteration of the fetch_trend_lang loop leaves the cache
unchanged or appends exactly the record of the entry, and only when the
full name passed the already-known check. -/
theorem trendStep_shape (config : Config) (wl : Watchlist) :
    ∀ (st : RepoMap) (e : TrendEntry),
      trendStep config wl st e = st ∨
      ∃ r, trendStep config wl st e = st ++ [(e.full_name, r)] ∧
        ((namesOf st).contains e.full_name || wl.isKnown e.full_name) = false := by
  intro st e
  simp only [trendStep]
  split
  · exact Or.inl rfl
  · split
    · exact Or.inl rfl
    · rename_i hf hknown
      exact Or.inr ⟨buildTrendRecord e, rfl, Bool.eq_false_iff.mpr hknown⟩

/-- Each iteration of the fetch_cghp loop leaves the cache unchanged or
appends exactly one record under the key of the item, and only when that
key passed the already-known check. -/
theorem cghpStep_shape (config : Config) (wl : Watchlist) :
    ∀ (st : RepoMap) (item : CghpItem),
      cghpStep config wl st item = st ∨
      ∃ r, cghpStep config wl st item = st ++ [(cghpKey item, r)] ∧
        ((namesOf st).contains (cghpKey item) ||
          wl.isKnown (cghpKey item)) = false := by
  intro st item
  simp only [cghpStep]
  split
  · exact Or.inl rfl
  · rename_i user repo heq
    have hkey : cghpKey item = user ++ "/" ++ repo := by
      simp [cghpKey, heq]
    rw [hkey]
    split
    · exact Or.inl rfl
    · split
      · exact Or.inl rfl
      · split
        · rename_i hf hknown hlang
          exact Or.inr ⟨_, rfl, Bool.eq_false_iff.mpr hknown⟩
        · exact Or.inl rfl

/-- A pending entry survives a whole fetch loop: iterations only append. -/
theorem foldl_pair_mono {ι : Type} (wl : Watchlist) (key : ι → String)
    (step : RepoMap → ι → RepoMap)
    (hshape : ∀ st it, step st it = st ∨
      ∃ r, step st it = st ++ [(key it, r)] ∧
        ((namesOf st).contains (key it) || wl.isKnown (key it)) = false) :
    ∀ (items : List ι) (st : RepoMap) (p : String × RepoRecord),
      p ∈ st → p ∈ items.foldl step st := by
  intro items
  induction items with
  | nil => intro st p hp; exact hp
  | cons a rest ih =>
    intro st p hp
    rw [List.foldl_cons]
    apply ih
    rcases hshape st a with heq | ⟨r, heq, _⟩
    · rw [heq]; exact hp
    · rw [heq]; exact List.mem_append_left _ hp

/-- A cached name survives a whole fetch loop. -/
theorem foldl_name_mono {ι : Type} (wl : Watchlist) (key : ι → String)
    (step : RepoMap → ι → RepoMap)
    (hshape : ∀ st it, step st it = st ∨
      ∃ r, step st it = st ++ [(key it, r)] ∧
        ((namesOf st).contains (key it) || wl.isKnown (key it)) = false)
    (items : List ι) :
    ∀ (st : RepoMap) (fn : String), fn ∈ namesOf st →
      fn ∈ namesOf (items.foldl step st) := by
  intro st fn h
  simp only [namesOf, List.mem_map] at h ⊢
  obtain ⟨p, hp, hpfn⟩ := h
  exact ⟨p, foldl_pair_mono wl key step hshape items st p hp, hpfn⟩

/-- A fetch loop can only create names carried by its input items. -/
theorem foldl_names_cases {ι : Type} (wl : Watchlist) (key : ι → String)
    (step : RepoMap → ι → RepoMap)
    (hshape : ∀ st it, step st it = st ∨
      ∃ r, step st it = st ++ [(key it, r)] ∧
        ((namesOf st).contains (key it) || wl.isKnown (key it)) = false) :
    ∀ (items : List ι) (st : RepoMap) (fn : String),
      fn ∈ namesOf (items.foldl step st) →
      fn ∈ namesOf st ∨ ∃ it ∈ items, key it = fn := by
  intro items
  induction items with
  | nil => intro st fn h; exact Or.inl h
  | cons a rest ih =>
    intro st fn h
    rw [List.foldl_cons] at h
    rcases ih (step st a) fn h with hin | ⟨it, hit, hk⟩
    · rcases hshape st a with heq | ⟨r, heq, _⟩
      · rw [heq] at hin
        exact Or.inl hin
      · rw [heq] at hin
        simp only [namesOf, List.map_append, List.mem_append, List.map_cons,
          List.map_nil, List.mem_singleton] at hin
        rcases hin with hin | hin
        · exact Or.inl hin
        · exact Or.inr ⟨a, List.mem_cons_self a rest, hin.symm⟩
    · exact Or.inr ⟨it, List.mem_cons_of_mem a hit, hk⟩

/-- A fetch loop iteration preserves the count of any name that is
already cached or on the watchlist: such a name is never re-added. -/
theorem countName_foldl {ι : Type} (wl : Watchlist) (key : ι → String)
    (step : RepoMap → ι → RepoMap)
    (hshape : ∀ st it, step st it = st ∨
      ∃ r, step st it = st ++ [(key it, r)] ∧
        ((namesOf st).contains (key it) || wl.isKnown (key it)) = false) :
    ∀ (items : List ι) (st : RepoMap) (fn : String),
      (fn ∈ namesOf st ∨ wl.isKnown fn = true) →
      countName (items.foldl step st) fn = countName st fn := by
  intro items
  induction items with
  | nil => intro st fn _; rfl
  | cons a rest ih =>
    intro st fn h
    rw [List.foldl_cons]
    rcases hshape st a with heq | ⟨r, heq, hguard⟩
    · rw [heq]
      exact ih st fn h
    · rcases Bool.or_eq_false_iff.mp hguard with ⟨hc, hk⟩
      have hne : key a ≠ fn := by
        intro hkeq
        rcases h with hm | hkn
        · rw [hkeq] at hc
          simp at hc
          exact hc hm
        · rw [hkeq] at hk
          rw [hkn] at hk
          exact absurd hk (by decide)
      have h2 : fn ∈ namesOf (st ++ [(key a, r)]) ∨ wl.isKnown fn = true := by
        rcases h with hm | hkn
        · left
          simp only [namesOf, List.map_append]
          exact List.mem_append_left _ hm
        · right
          exact hkn
      rw [heq]
      rw [ih (st ++ [(key a, r)]) fn h2]
      exact countName_append_single st hne

/-- C1: full_name uniquely identifies a repository across the pending
cache and the snooze/zap watchlist: for a name already present in the
cache or known to the watchlist, none of the three fetch routines adds a
record under it (its entry count in the cache is unchanged by each of
them). -/
theorem fetch_never_readd (config : Config) (wl : Watchlist) (st : RepoMap)
    (fn : String) (h : fn ∈ namesOf st ∨ wl.isKnown fn = true)
    (items : List SearchItem) (entries : List TrendEntry)
    (citems : List CghpItem) :
    countName (fetch_search config wl items st) fn = countName st fn ∧
    countName (fetch_trend_lang config wl entries st) fn = countName st fn ∧
    countName (fetch_cghp config wl citems st) fn = countName st fn :=
  ⟨countName_foldl wl (fun it => it.full_name) (searchStep config wl)
     (searchStep_shape config wl) items st fn h,
   countName_foldl wl (fun e => e.full_name) (trendStep config wl)
     (trendStep_shape config wl) entries st fn h,
   countName_foldl wl cghpKey (cghpStep config wl)
     (cghpStep_shape config wl) citems st fn h⟩

/-- C1 witness: with bob/goodtool already pending and zed/old snoozed,
fetching items carrying those very names adds nothing. -/
theorem fetch_never_readd_witness :
    ("bob/goodtool" ∈ namesOf [("bob/goodtool", sampleRecord)] ∨
       sampleWatchlist.isKnown "bob/goodtool" = true) ∧
    countName (fetch_search sampleConfig sampleWatchlist [sampleItemB]
        [("bob/goodtool", sampleRecord)]) "bob/goodtool" =
      countName [("bob/goodtool", sampleRecord)] "bob/goodtool" := by
  refine ⟨Or.inl (by decide), ?_⟩
  exact (fetch_never_readd sampleConfig sampleWatchlist
    [("bob/goodtool", sampleRecord)] "bob/goodtool" (Or.inl (by decide))
    [sampleItemB] [] []).1

/-- When one of the three fetch_search checks fails, the cache is left
untouched for this item. -/
theorem searchStep_fail (config : Config) (wl : Watchlist) (st : RepoMap)
    (item : SearchItem)
    (h : ¬(filter_repo (buildSearchRecord item) config = false ∧
       wl.isKnown item.full_name = false ∧
       (config.accept_languages.contains "All" ||
         langMem config.accept_languages item.language) = true)) :
    searchStep config wl st item = st := by
  simp only [searchStep]
  split
  · rfl
  · split
    · rfl
    · split
      · exfalso
        rename_i hf hknown hlang
        apply h
        refine ⟨Bool.eq_false_iff.mpr hf, ?_, hlang⟩
        exact (Bool.or_eq_false_iff.mp (Bool.eq_false_iff.mpr hknown)).2
      · rfl

/-- The inductive core of C6: along a batch of search results with
pairwise distinct names, a result whose name is fresh to the cache ends
up cached exactly when it passes the filter, the watchlist check and the
language allow-list. -/
theorem fetch_search_add_iff_aux (config : Config) (wl : Watchlist)
    (item : SearchItem) :
    ∀ (items : List SearchItem) (st : RepoMap),
      items.Pairwise (fun a b => a.full_name ≠ b.full_name) →
      item ∈ items → item.full_name ∉ namesOf st →
      (item.full_name ∈ namesOf (fetch_search config wl items st) ↔
        (filter_repo (buildSearchRecord item) config = false ∧
         wl.isKnown item.full_name = false ∧
         (config.accept_languages.contains "All" ||
           langMem config.accept_languages item.language) = true)) := by
  intro items
  induction items with
  | nil => intro st _ hmem _; cases hmem
  | cons a rest ih =>
    intro st hdist hmem hnew
    have hdist2 := List.pairwise_cons.mp hdist
    rcases List.mem_cons.mp hmem with rfl | hmem2
    · by_cases hpass : (filter_repo (buildSearchRecord item) config = false ∧
         wl.isKnown item.full_name = false ∧
         (config.accept_languages.contains "All" ||
           langMem config.accept_languages item.language) = true)
      · obtain ⟨hf, hk, hl⟩ := hpass
        have hc : (namesOf st).contains item.full_name = false := by
          simpa using hnew
        have hstep : searchStep config wl st item =
            st ++ [(item.full_name, buildSearchRecord item)] := by
          simp only [searchStep, hf, hk, hl]
          simp [hnew]
        have hmemf : item.full_name ∈
            namesOf (fetch_search config wl (item :: rest) st) := by
          show item.full_name ∈ namesOf
            (List.foldl (searchStep config wl) (searchStep config wl st item)
              rest)
          apply foldl_name_mono wl (fun it => it.full_name)
            (searchStep config wl) (searchStep_shape config wl) rest
          rw [hstep]
          simp [namesOf, List.map_append, List.mem_append]
        exact iff_of_true hmemf ⟨hf, hk, hl⟩
      · have hstep : searchStep config wl st item = st :=
          searchStep_fail config wl st item hpass
        have hnot : item.full_name ∉
            namesOf (fetch_search config wl (item :: rest) st) := by
          intro hmemf
          have hmemf2 : item.full_name ∈
              namesOf (List.foldl (searchStep config wl) st rest) := by
            have hunf : fetch_search config wl (item :: rest) st =
                List.foldl (searchStep config wl)
                  (searchStep config wl st item) rest := rfl
            rw [hunf, hstep] at hmemf
            exact hmemf
          rcases foldl_names_cases wl (fun it => it.full_name)
              (searchStep config wl) (searchStep_shape config wl) rest st
              item.full_name hmemf2 with hin | ⟨it2, hit2, hkeq⟩
          · exact hnew hin
          · exact (hdist2.1 it2 hit2) hkeq.symm
        exact iff_of_false hnot hpass
    · have hne : a.full_name ≠ item.full_name := hdist2.1 item hmem2
      have hnew2 : item.full_name ∉ namesOf (searchStep config wl st a) := by
        intro hmem3
        rcases searchStep_shape config wl st a with heq | ⟨r, heq, _⟩
        · rw [heq] at hmem3
          exact hnew hmem3
        · rw [heq] at hmem3
          simp only [namesOf, List.map_append, List.mem_append, List.map_cons,
            List.map_nil, List.mem_singleton] at hmem3
          rcases hmem3 with hin | hin
          · exact hnew hin
          · exact hne hin.symm
      exact ih (searchStep config wl st a) hdist2.2 hmem2 hnew2

/-- C6: for a search-type source over results with pairwise distinct
names, a result whose name is not yet cached is added to the pending
cache if and only if no filter matches it (a None description passing
the description filters vacuously), its name is not known to the
watchlist, and its language passes the allow-list (or the list holds
All); in particular, of two results where exactly one matches a
repo-name filter, only the other one ends up pending. -/
theorem fetch_search_add_iff (config : Config) (wl : Watchlist)
    (items : List SearchItem) (st : RepoMap) (item : SearchItem)
    (hdist : items.Pairwise (fun a b => a.full_name ≠ b.full_name))
    (hmem : item ∈ items) (hnew : item.full_name ∉ namesOf st) :
    item.full_name ∈ namesOf (fetch_search config wl items st) ↔
      (filter_repo (buildSearchRecord item) config = false ∧
       wl.isKnown item.full_name = false ∧
       (config.accept_languages.contains "All" ||
         langMem config.accept_languages item.language) = true) :=
  fetch_search_add_iff_aux config wl item items st hdist hmem hnew

/-- C6 witness: the two-repo scenario of the claim: sampleItemA matches
the repo-name filter and stays out, sampleItemB passes every check and
is cached. -/
theorem fetch_search_add_iff_witness :
    (filter_repo (buildSearchRecord sampleItemA) sampleConfig = true ∧
       "alice/badtool" ∉ namesOf (fetch_search sampleConfig sampleWatchlist
         [sampleItemA, sampleItemB] [])) ∧
    (filter_repo (buildSearchRecord sampleItemB) sampleConfig = false ∧
       "bob/goodtool" ∈ namesOf (fetch_search sampleConfig sampleWatchlist
         [sampleItemA, sampleItemB] [])) := by
  refine ⟨⟨by decide, ?_⟩, ⟨by decide, ?_⟩⟩
  · intro hmem
    have h := (fetch_search_add_iff sampleConfig sampleWatchlist
      [sampleItemA, sampleItemB] [] sampleItemA (by decide)
      (by decide) (by decide)).mp hmem
    exact absurd h.1 (by decide)
  · exact (fetch_search_add_iff sampleConfig sampleWatchlist
      [sampleItemA, sampleItemB] [] sampleItemB (by decide)
      (by decide) (by decide)).mpr ⟨by decide, by decide, by decide⟩

/-- The inductive core of C7: a trend entry with a fresh name that passes
the filter and the watchlist check is cached, with no language
condition. -/
theorem fetch_trend_adds_aux (config : Config) (wl : Watchlist)
    (e : TrendEntry) :
    ∀ (entries : List TrendEntry) (st : RepoMap),
      entries.Pairwise (fun a b => a.full_name ≠ b.full_name) →
      e ∈ entries → e.full_name ∉ namesOf st →
      filter_repo (buildTrendRecord e) config = false →
      wl.isKnown e.full_name = false →
      (e.full_name, buildTrendRecord e) ∈
        fetch_trend_lang config wl entries st := by
  intro entries
  induction entries with
  | nil => intro st _ hmem; cases hmem
  | cons a rest ih =>
    intro st hdist hmem hnew hf hk
    have hdist2 := List.pairwise_cons.mp hdist
    rcases List.mem_cons.mp hmem with rfl | hmem2
    · have hc : (namesOf st).contains e.full_name = false := by
        simpa using hnew
      have hstep : trendStep config wl st e =
          st ++ [(e.full_name, buildTrendRecord e)] := by
        simp [trendStep, hf, hk, hnew]
      show (e.full_name, buildTrendRecord e) ∈
        List.foldl (trendStep config wl) (trendStep config wl st e) rest
      apply foldl_pair_mono wl (fun x => x.full_name) (trendStep config wl)
        (trendStep_shape config wl) rest
      rw [hstep]
      exact List.mem_append_right _ (List.mem_singleton.mpr rfl)
    · have hne : a.full_name ≠ e.full_name := hdist2.1 e hmem2
      have hnew2 : e.full_name ∉ namesOf (trendStep config wl st a) := by
        intro hmem3
        rcases trendStep_shape config wl st a with heq | ⟨r, heq, _⟩
        · rw [heq] at hmem3
          exact hnew hmem3
        · rw [heq] at hmem3
          simp only [namesOf, List.map_append, List.mem_append, List.map_cons,
            List.map_nil, List.mem_singleton] at hmem3
          rcases hmem3 with hin | hin
          · exact hnew hin
          · exact hne hin.symm
      exact ih (trendStep config wl st a) hdist2.2 hmem2 hnew2 hf hk

/-- C7: a trend entry is subjected only to the filter check and the
already-known check: even when its parsed language is outside the
configured allow-list it is added to the pending cache, and its record
carries the sentinel star and fork counts -1. -/
theorem fetch_trend_ignores_language (config : Config) (wl : Watchlist)
    (entries : List TrendEntry) (st : RepoMap) (e : TrendEntry)
    (hdist : entries.Pairwise (fun a b => a.full_name ≠ b.full_name))
    (hmem : e ∈ entries) (hnew : e.full_name ∉ namesOf st)
    (hf : filter_repo (buildTrendRecord e) config = false)
    (hk : wl.isKnown e.full_name = false)
    (_hlang : e.language ∉ config.accept_languages) :
    (e.full_name, buildTrendRecord e) ∈
        fetch_trend_lang config wl entries st ∧
    (buildTrendRecord e).stargazers_count = -1 ∧
    (buildTrendRecord e).forks_count = -1 :=
  ⟨fetch_trend_adds_aux config wl e entries st hdist hmem hnew hf hk,
   rfl, rfl⟩

/-- C7 witness: the Rust trend entry is cached although the allow-list
admits only Python. -/
theorem fetch_trend_ignores_language_witness :
    (sampleTrendEntry.language ∉ sampleConfig.accept_languages ∧
       sampleConfig.accept_languages.contains "All" = false) ∧
    ("carol/trendy", buildTrendRecord sampleTrendEntry) ∈
      fetch_trend_lang sampleConfig sampleWatchlist [sampleTrendEntry] [] := by
  refine ⟨⟨by decide, by decide⟩, ?_⟩
  exact (fetch_trend_ignores_language sampleConfig sampleWatchlist
    [sampleTrendEntry] [] sampleTrendEntry (by decide) (by decide)
    (by decide) (by decide) (by decide) (by decide)).1

end GhWatch
